import Mathlib

/-!
Verification of the timing-pattern synthesis and file-serialization core of
the Flipper Zero protocol-file generator (`Sub_IR_Protocol.py`).

Strings are modelled as `List Char`, Python integers as `Int`/`Nat`, and
Python's floor division `//` as `Int.fdiv`.  Optional/falsy keyword arguments
are modelled by their falsy values (`0`, `[]`), matching Python truthiness as
used by the code.
-/

/-! ### Character helpers -/

/-- Decimal digit test, as Python would classify the ASCII digits accepted by
`int(...)`. -/
def isDigitCh (c : Char) : Bool := '0' ≤ c && c ≤ '9'

/-- Value of a decimal digit character. -/
def digitVal (c : Char) : Nat := c.toNat - 48

/-- The decimal digit character for `d < 10` (table form of `chr(48+d)`). -/
def digitCh (d : Nat) : Char :=
  match d with
  | 0 => '0' | 1 => '1' | 2 => '2' | 3 => '3' | 4 => '4'
  | 5 => '5' | 6 => '6' | 7 => '7' | 8 => '8' | 9 => '9'
  | _ + 10 => '0'

/-- Binary digit character, used when modelling Python's `bin`. -/
def bitCh (d : Nat) : Char := if d = 1 then '1' else '0'

/-! ### Decimal rendering: Python `str(int)` -/

/-- Fuel-driven most-significant-first decimal digits of a positive number.
The fuel argument only bounds the recursion; any fuel `≥ n` gives the digits
of `n`. -/
def decCore : Nat → Nat → List Char
  | 0, _ => []
  | _ + 1, 0 => []
  | f + 1, n + 1 => decCore f ((n + 1) / 10) ++ [digitCh ((n + 1) % 10)]

/-- Decimal representation of a natural number, as Python `str` renders it
(no leading zeros, `"0"` for zero). -/
def natDecChars (n : Nat) : List Char := if n = 0 then ['0'] else decCore n n

/-- Python `str` of an arbitrary integer: a `-` sign followed by the decimal
magnitude for negatives, plain decimal otherwise. -/
def intDecChars (i : Int) : List Char :=
  if i < 0 then '-' :: natDecChars i.natAbs else natDecChars i.toNat

/-! ### Decimal parsing: Python `int(token)` -/

/-- Parse an unsigned decimal numeral: all characters must be digits and the
token must be nonempty, as Python `int` requires. -/
def parseNat (cs : List Char) : Option Nat :=
  if cs.isEmpty then none
  else if cs.all isDigitCh then some (cs.foldl (fun a c => 10 * a + digitVal c) 0)
  else none

/-- Parse a signed decimal token the way Python `int(token)` does: an optional
single leading sign followed by a nonempty digit string. -/
def parseIntTok (cs : List Char) : Option Int :=
  match cs with
  | [] => none
  | c :: rest =>
      if c = '-' then (parseNat rest).map (fun n => -(n : Int))
      else if c = '+' then (parseNat rest).map (fun n => (n : Int))
      else (parseNat cs).map (fun n => (n : Int))

/-! ### Whitespace splitting: Python `str.split()` -/

/-- Python whitespace, the separator class of argument-less `str.split`. -/
def isPySpace (c : Char) : Bool :=
  c = ' ' || c = '\t' || c = '\n' || c = '\r' || c = '\x0B' || c = '\x0C'

/-- Worker for `pySplitWs`: `acc` holds the current token reversed. -/
def splitWsAux : List Char → List Char → List (List Char)
  | [], acc => if acc = [] then [] else [acc.reverse]
  | c :: rest, acc =>
      if isPySpace c then
        (if acc = [] then splitWsAux rest [] else acc.reverse :: splitWsAux rest [])
      else splitWsAux rest (c :: acc)

/-- Python `str.split()`: split on runs of whitespace, dropping empty
tokens. -/
def pySplitWs (s : List Char) : List (List Char) := splitWsAux s []

/-! ### Joining: Python `' '.join` / `'\n'.join` -/

/-- Python `' '.join` over a list of tokens. -/
def joinSp : List (List Char) → List Char
  | [] => []
  | [t] => t
  | t :: ts => t ++ ' ' :: joinSp ts

/-- Python `'\n'.join` over a list of lines. -/
def joinNl : List (List Char) → List Char
  | [] => []
  | [t] => t
  | t :: ts => t ++ '\n' :: joinNl ts

/-! ### The RAW_Data timing line (serializer line 828, parser lines 569-588) -/

/-- `' '.join(map(str, raw_data))`: the rendered timing line. -/
def renderRawLine (l : List Int) : List Char := joinSp (l.map intDecChars)

/-- `[int(x) for x in tokens]`: converts every token, failing if any token
fails, as the comprehension propagates `ValueError`. -/
def parseAllInts : List (List Char) → Option (List Int)
  | [] => some []
  | t :: ts =>
      match parseIntTok t, parseAllInts ts with
      | some v, some vs => some (v :: vs)
      | _, _ => none

/-- `[int(x) for x in content.split()]`: re-parse of a timing line as done by
`load_raw_from_file`. -/
def parseRawLine (s : List Char) : Option (List Int) := parseAllInts (pySplitWs s)

/-! ### Manchester encoder (`generate_manchester`, lines 420-436)

Python's `//` is floor division; in `-bit_time//2` the unary minus binds
tighter than `//`, so the code computes `(-bit_time)//2 = Int.fdiv (-bitTime) 2`. -/

/-- `generate_manchester`: per `'1'` extends `[bit_time//2, -bit_time//2]`,
per `'0'` extends `[-bit_time//2, bit_time//2]`, other characters are
skipped. -/
def generateManchester (bitTime : Int) (data : List Char) : List Int :=
  data.flatMap (fun bit =>
    if bit = '1' then [Int.fdiv bitTime 2, Int.fdiv (-bitTime) 2]
    else if bit = '0' then [Int.fdiv (-bitTime) 2, Int.fdiv bitTime 2]
    else [])

/-! ### Timing analyzer (`analyze_timing`, lines 642-665)

The partial operations `min`, `max` and `//` are modelled as `Option`-valued
(`none` where Python would raise), so that the analyzer's guards are visibly
what prevents failure. -/

/-- Python `min` over a list: fails (`none`) on the empty list. -/
def pyMin : List Int → Option Int
  | [] => none
  | x :: xs => some (xs.foldl min x)

/-- Python `max` over a list: fails (`none`) on the empty list. -/
def pyMax : List Int → Option Int
  | [] => none
  | x :: xs => some (xs.foldl max x)

/-- Python `sum(vals)//len(vals)`: floor division, failing on division by
zero. -/
def pyAvgFloor (l : List Int) : Option Int :=
  if l.length = 0 then none else some (Int.fdiv l.sum l.length)

/-- One side's min/max/avg report. -/
structure SideStats where
  minV : Int
  maxV : Int
  avgV : Int
deriving DecidableEq, Repr

/-- min/max/avg of a value subset; `none` if any of the underlying partial
operations would fail. -/
def sideStatsOf (l : List Int) : Option SideStats :=
  match pyMin l, pyMax l, pyAvgFloor l with
  | some a, some b, some c => some ⟨a, b, c⟩
  | _, _, _ => none

/-- The `if positive_vals:` guard: an empty side is skipped (`some none`),
a nonempty side must analyze successfully or the whole analysis fails. -/
def guardedStats (l : List Int) : Option (Option SideStats) :=
  if l = [] then some none else (sideStatsOf l).map some

/-- Full analyzer report: counts plus the optional per-side statistics. -/
structure TimingReport where
  total : Nat
  posCount : Nat
  negCount : Nat
  onStats : Option SideStats
  offStats : Option SideStats
deriving DecidableEq, Repr

/-- `analyze_timing` on an already-parsed sequence: counts, positive subset,
negative subset by absolute value, sides reported only when nonempty. -/
def analyzeTiming (timing : List Int) : Option TimingReport :=
  match guardedStats (timing.filter (fun x => decide (0 < x))),
      guardedStats ((timing.filter (fun x => decide (x < 0))).map (fun x => |x|)) with
  | some a, some b =>
      some ⟨timing.length, (timing.filter (fun x => decide (0 < x))).length,
        ((timing.filter (fun x => decide (x < 0))).map (fun x => |x|)).length, a, b⟩
  | _, _ => none

/-! ### Key normalization (`get_protocol_data`, lines 736-747) -/

/-- `key.replace('0x', '')`: removes every occurrence of the two-character
sequence `0x` (case-sensitive, left to right, non-overlapping). -/
def strip0x : List Char → List Char
  | [] => []
  | [c] => [c]
  | c1 :: c2 :: rest =>
      if c1 = '0' ∧ c2 = 'x' then strip0x rest else c1 :: strip0x (c2 :: rest)

/-- `.replace(' ', '')`: removes space characters. -/
def dropSpaces (s : List Char) : List Char := s.filter (fun c => !(c == ' '))

/-- `.upper()` on the ASCII range. -/
def upperAscii (s : List Char) : List Char := s.map Char.toUpper

/-- Split into the 2-character groups of
`' '.join(key[i:i+2] for i in range(0, len(key), 2))`. -/
def chunk2 : List Char → List (List Char)
  | [] => []
  | [a] => [[a]]
  | a :: b :: rest => [a, b] :: chunk2 rest

/-- Regroup a hex string into byte pairs joined by single spaces. -/
def groupPairs (s : List Char) : List Char := joinSp (chunk2 s)

/-- Python `str.zfill`: left-pad with `'0'` to the width, keeping a leading
sign character in place; no-op when already wide enough. -/
def pyZfill (w : Nat) (s : List Char) : List Char :=
  if w ≤ s.length then s
  else
    match s with
    | [] => List.replicate w '0'
    | c :: rest =>
        if c = '-' ∨ c = '+' then c :: (List.replicate (w - s.length) '0' ++ rest)
        else List.replicate (w - s.length) '0' ++ s

/-- The key branch of `get_protocol_data` (lines 736-747): an empty key is
left untouched; otherwise remove `0x` and spaces, uppercase, truncate or
left-zero-pad to `hexChars` characters, and regroup into byte pairs.  No
hex-digit validation is performed anywhere on this path. -/
def normalizeKey (key : List Char) (hexChars : Nat) : List Char :=
  if key = [] then key
  else
    let k := upperAscii (dropSpaces (strip0x key))
    let k2 :=
      if hexChars < k.length then k.take hexChars
      else if k.length < hexChars then pyZfill hexChars k
      else k
    groupPairs k2

/-- Hex-digit test (`0-9`, `A-F`, `a-f`), for stating what the spec's
`InvalidHex` check would have rejected. -/
def isHexDigitCh (c : Char) : Bool :=
  isDigitCh c || ('A' ≤ c && c ≤ 'F') || ('a' ≤ c && c ≤ 'f')

/-! ### Protocol catalog (`subghz_protocols`, lines 39-51) -/

/-- Per-protocol Sub-GHz catalog entry. -/
structure ProtoInfo where
  bits : Nat
  keyBytes : Nat
  needsTe : Bool
  defaultTe : Option Nat
deriving DecidableEq, Repr

/-- The protocol name `"RAW"`. -/
def rawName : List Char := ['R', 'A', 'W']

/-- The Sub-GHz protocol catalog, in declaration order. -/
def subghzCatalog : List (List Char × ProtoInfo) :=
  [ (['P','r','i','n','c','e','t','o','n'], ⟨24, 8, true, some 400⟩)
  , (['N','i','c','e','_','F','l','o'], ⟨12, 3, false, none⟩)
  , (['C','a','m','e'], ⟨12, 3, false, none⟩)
  , (['L','i','n','e','a','r'], ⟨10, 3, false, none⟩)
  , (['G','a','t','e','_','T','X'], ⟨24, 6, false, none⟩)
  , (['C','h','a','m','b','e','r','l','a','i','n'], ⟨32, 8, false, none⟩)
  , (['D','o','o','r','H','a','n'], ⟨24, 6, false, none⟩)
  , (['S','o','m','f','y','_','T','e','l','i','s'], ⟨56, 14, false, none⟩)
  , (['S','t','a','r','_','L','i','n','e'], ⟨64, 16, false, none⟩)
  , (['H','o','l','t','e','k'], ⟨40, 10, false, none⟩)
  , (rawName, ⟨0, 0, false, none⟩) ]

/-- Catalog lookup (`self.subghz_protocols[protocol]`). -/
def lookupSubghz (name : List Char) : Option ProtoInfo :=
  (subghzCatalog.find? (fun p => p.1 == name)).map (fun p => p.2)

/-! ### Sub-GHz serializer (`create_subghz_file`, lines 819-851) -/

/-- The keyword-argument record passed to `create_subghz_file`.  Absent and
falsy keyword arguments coincide in the code (`kwargs.get` plus truthiness
tests), so absent `bit_count`/`te` are `0`, absent `key`/`data` are `[]`,
absent `repeat` is `1`, absent `preset` is `none`. -/
structure SubGhzRec where
  protocol : List Char
  frequency : Nat
  preset : Option (List Char)
  rawData : List Int
  bitCount : Nat
  key : List Char
  dataHex : List Char
  te : Int
  repeatCount : Nat

/-- `"Filetype: Flipper SubGhz Key File"`. -/
def ftLine : List Char :=
  ['F','i','l','e','t','y','p','e',':',' ','F','l','i','p','p','e','r',' ',
   'S','u','b','G','h','z',' ','K','e','y',' ','F','i','l','e']

/-- `"Version: 1"`. -/
def verLine : List Char := ['V','e','r','s','i','o','n',':',' ','1']

/-- The default preset string `"FuriHalSubGhzPresetOok270Async"`. -/
def defaultPreset : List Char :=
  ['F','u','r','i','H','a','l','S','u','b','G','h','z','P','r','e','s','e','t',
   'O','o','k','2','7','0','A','s','y','n','c']

/-- `f"Frequency: {kwargs['frequency']}"`. -/
def freqLine (r : SubGhzRec) : List Char :=
  ['F','r','e','q','u','e','n','c','y',':',' '] ++ natDecChars r.frequency

/-- `f"Preset: {kwargs.get('preset', ...)}"`. -/
def presetLine (r : SubGhzRec) : List Char :=
  ['P','r','e','s','e','t',':',' '] ++ r.preset.getD defaultPreset

/-- `f"Protocol: {kwargs['protocol']}"`. -/
def protoLine (r : SubGhzRec) : List Char :=
  ['P','r','o','t','o','c','o','l',':',' '] ++ r.protocol

/-- `f"RAW_Data: {' '.join(map(str, kwargs['raw_data']))}"`. -/
def rawDataLine (r : SubGhzRec) : List Char :=
  ['R','A','W','_','D','a','t','a',':',' '] ++ renderRawLine r.rawData

/-- `f"Bit: {kwargs['bit_count']}"`. -/
def bitLine (r : SubGhzRec) : List Char :=
  ['B','i','t',':',' '] ++ natDecChars r.bitCount

/-- `f"Key: {kwargs['key']}"`. -/
def keyLine (r : SubGhzRec) : List Char := ['K','e','y',':',' '] ++ r.key

/-- `f"TE: {kwargs['te']}"`. -/
def teLine (r : SubGhzRec) : List Char := ['T','E',':',' '] ++ intDecChars r.te

/-- `f"Data: {kwargs['data']}"`. -/
def dataLine (r : SubGhzRec) : List Char := ['D','a','t','a',':',' '] ++ r.dataHex

/-- `f"Repeat: {kwargs['repeat']}"`. -/
def repeatLine (r : SubGhzRec) : List Char :=
  ['R','e','p','e','a','t',':',' '] ++ natDecChars r.repeatCount

/-- The list of lines assembled by `create_subghz_file` (lines 821-849):
five headers, then either the RAW_Data line (protocol `"RAW"`) or the
truthiness-guarded Bit/Key/TE/Data/Repeat lines. -/
def createSubghzLines (r : SubGhzRec) : List (List Char) :=
  [ftLine, verLine, freqLine r, presetLine r, protoLine r] ++
    (if r.protocol = rawName then [rawDataLine r]
     else
       (if r.bitCount ≠ 0 then [bitLine r] else []) ++
       (if r.key ≠ [] then [keyLine r] else []) ++
       (if r.te ≠ 0 then [teLine r] else []) ++
       (if r.dataHex ≠ [] then [dataLine r] else []) ++
       (if 1 < r.repeatCount then [repeatLine r] else []))

/-- `content = '\n'.join(lines) + '\n'` (line 851). -/
def createSubghzContent (r : SubGhzRec) : List Char :=
  joinNl (createSubghzLines r) ++ ['\n']

/-- Does some emitted line start with the given tag? -/
def hasTag (p : List Char) (ls : List (List Char)) : Bool :=
  ls.any (fun l => p.isPrefixOf l)

/-- Line tag `"RAW_Data: "`. -/
def rawTag : List Char := ['R','A','W','_','D','a','t','a',':',' ']

/-- Line tag `"Bit: "`. -/
def bitTag : List Char := ['B','i','t',':',' ']

/-- Line tag `"Key: "`. -/
def keyTag : List Char := ['K','e','y',':',' ']

/-- Line tag `"TE: "`. -/
def teTag : List Char := ['T','E',':',' ']

/-- Line tag `"Data: "`. -/
def dataTag : List Char := ['D','a','t','a',':',' ']

/-- Line tag `"Repeat: "`. -/
def repeatTag : List Char := ['R','e','p','e','a','t',':',' ']

/-- Does any emitted line belong to the structured Bit/Key/TE/Data/Repeat
subset? -/
def hasStructTag (ls : List (List Char)) : Bool :=
  hasTag bitTag ls || hasTag keyTag ls || hasTag teTag ls ||
    hasTag dataTag ls || hasTag repeatTag ls

/-! ### Wizard parameter assembly (`subghz_wizard`, lines 129-167)

The wizard passes `protocol`, `frequency` and `raw_data` for RAW; otherwise
`protocol`, `frequency`, `key`, `repeat`, `bit_count` from the catalog, `te`
only when the catalog entry needs it and a truthy value was given, and `data`
only when truthy (an empty `data` and an absent one are both falsy at the
serializer). -/

/-- The record that `subghz_wizard` hands to `create_subghz_file`, given the
operator-collected primitives and the catalog entry for `protocol`. -/
def wizardRecord (protocol : List Char) (frequency : Nat) (rawData : List Int)
    (key dataHex : List Char) (te : Int) (rep : Nat) (info : ProtoInfo) :
    SubGhzRec :=
  if protocol = rawName then
    { protocol := protocol, frequency := frequency, preset := none,
      rawData := rawData, bitCount := 0, key := [], dataHex := [],
      te := 0, repeatCount := 1 }
  else
    { protocol := protocol, frequency := frequency, preset := none,
      rawData := [], bitCount := info.bits, key := key, dataHex := dataHex,
      te := if info.needsTe ∧ te ≠ 0 then te else 0, repeatCount := rep }

/-! ### NEC-like encoder (`generate_nec_like`, lines 497-523) -/

/-- Hex digit value for Python `int(_, 16)`. -/
def hexVal (c : Char) : Option Nat :=
  if isDigitCh c then some (c.toNat - 48)
  else if 'a' ≤ c && c ≤ 'f' then some (c.toNat - 87)
  else if 'A' ≤ c && c ≤ 'F' then some (c.toNat - 55)
  else none

/-- Parse a nonempty unsigned hex digit string. -/
def parseHexNat (cs : List Char) : Option Nat :=
  if cs.isEmpty then none
  else
    cs.foldl
      (fun acc c =>
        match acc, hexVal c with
        | some a, some v => some (16 * a + v)
        | _, _ => none)
      (some 0)

/-- The optional `0x`/`0X` marker accepted inside Python `int(_, 16)`. -/
def dropHexMarker (s : List Char) : List Char :=
  match s with
  | c0 :: c1 :: rest => if c0 = '0' ∧ (c1 = 'x' ∨ c1 = 'X') then rest else s
  | _ => s

/-- Python `int(s, 16)`: optional sign, optional `0x`/`0X`, then a nonempty
hex numeral. -/
def pyIntHex (s : List Char) : Option Int :=
  match s with
  | [] => none
  | c :: rest =>
      if c = '-' then (parseHexNat (dropHexMarker rest)).map (fun n => -(n : Int))
      else if c = '+' then (parseHexNat (dropHexMarker rest)).map (fun n => (n : Int))
      else (parseHexNat (dropHexMarker s)).map (fun n => (n : Int))

/-- The `data.startswith('0x')` strip in `generate_nec_like` (lowercase
only). -/
def stripNecMarker (s : List Char) : List Char :=
  match s with
  | c0 :: c1 :: rest => if c0 = '0' ∧ c1 = 'x' then rest else s
  | _ => s

/-- Fuel-driven most-significant-first binary digits of a positive number;
any fuel `≥ n` gives the digits of `n`. -/
def binCore : Nat → Nat → List Char
  | 0, _ => []
  | _ + 1, 0 => []
  | f + 1, n + 1 => binCore f ((n + 1) / 2) ++ [bitCh ((n + 1) % 2)]

/-- `bin(n)[2:]` for `n ≥ 0`: binary digits without leading zeros, `"0"` for
zero. -/
def natBinChars (n : Nat) : List Char := if n = 0 then ['0'] else binCore n n

/-- `bin(i)[2:]` for arbitrary `i`: Python renders negatives as `-0b...`, so
slicing off two characters leaves `b` followed by the binary magnitude. -/
def pyBinDrop2 (i : Int) : List Char :=
  if i < 0 then 'b' :: natBinChars i.natAbs else natBinChars i.toNat

/-- Per-character NEC bit timing: `'1'` gives `[560, -1690]`, anything else
(the `else` branch) gives `[560, -560]`. -/
def necBitTiming (c : Char) : List Int :=
  if c = '1' then [560, -1690] else [560, -560]

/-- `generate_nec_like`: leader `[9000, -4500]`, the per-character timings of
`bin(int(data,16))[2:].zfill(32)`, and the lone stop mark `560`; `none` models
the `ValueError` path (the code prints an error and returns `[]`). -/
def generateNecLike (s : List Char) : Option (List Int) :=
  match pyIntHex (stripNecMarker s) with
  | none => none
  | some v =>
      some ([9000, -4500] ++ (pyZfill 32 (pyBinDrop2 v)).flatMap necBitTiming ++ [560])

/-! ### Decimal digit lemmas -/

theorem digitVal_digitCh : ∀ d : Nat, d < 10 → digitVal (digitCh d) = d := by decide

theorem isDigitCh_digitCh : ∀ d : Nat, d < 10 → isDigitCh (digitCh d) = true := by decide

theorem isDigitCh_ne_dash {c : Char} (h : isDigitCh c = true) : c ≠ '-' := by
  rintro rfl; exact absurd h (by decide)

theorem isDigitCh_ne_plus {c : Char} (h : isDigitCh c = true) : c ≠ '+' := by
  rintro rfl; exact absurd h (by decide)

theorem isDigitCh_not_space {c : Char} (h : isDigitCh c = true) : isPySpace c = false := by
  by_contra h'
  have h2 : isPySpace c = true := by
    cases hy : isPySpace c
    · exact absurd hy h'
    · rfl
  simp only [isPySpace, Bool.or_eq_true, decide_eq_true_eq] at h2
  rcases h2 with ((((rfl | rfl) | rfl) | rfl) | rfl) | rfl <;> exact absurd h (by decide)

theorem decCore_zero_fuelless : ∀ f, decCore f 0 = [] := by
  intro f; cases f <;> rfl

theorem decCore_digits : ∀ f n, ∀ c ∈ decCore f n, isDigitCh c = true := by
  intro f
  induction f with
  | zero => intro n c hc; simp [decCore] at hc
  | succ f ih =>
      intro n c hc
      cases n with
      | zero => simp [decCore] at hc
      | succ m =>
          rw [decCore] at hc
          rcases List.mem_append.mp hc with h1 | h2
          · exact ih _ _ h1
          · rcases List.mem_singleton.mp h2 with rfl
            exact isDigitCh_digitCh _ (Nat.mod_lt _ (by omega))

theorem decCore_ne_nil : ∀ f n, 0 < n → n ≤ f → decCore f n ≠ [] := by
  intro f n h1 h2
  cases f with
  | zero => omega
  | succ f =>
      cases n with
      | zero => omega
      | succ m => rw [decCore]; simp

theorem decCore_foldl : ∀ f n (a : Nat), 0 < n → n ≤ f →
    ∃ k, 0 < k ∧
      (decCore f n).foldl (fun a c => 10 * a + digitVal c) a = a * 10 ^ k + n := by
  intro f
  induction f with
  | zero => intro n a h1 h2; omega
  | succ f ih =>
      intro n a h1 h2
      cases n with
      | zero => omega
      | succ m =>
          rw [decCore, List.foldl_append]
          have hmod : (m + 1) % 10 < 10 := Nat.mod_lt _ (by omega)
          by_cases hq : (m + 1) / 10 = 0
          · rw [hq, decCore_zero_fuelless]
            refine ⟨1, by omega, ?_⟩
            simp only [List.foldl_nil, List.foldl_cons, digitVal_digitCh _ hmod, pow_one]
            have : (m + 1) % 10 = m + 1 := Nat.mod_eq_of_lt (by omega)
            omega
          · have hqle : (m + 1) / 10 ≤ f := by
              have := Nat.div_lt_self (by omega : 0 < m + 1) (by omega : 1 < 10)
              omega
            obtain ⟨k, hk, hfold⟩ := ih ((m + 1) / 10) a (by omega) hqle
            refine ⟨k + 1, by omega, ?_⟩
            rw [hfold]
            simp only [List.foldl_cons, List.foldl_nil, digitVal_digitCh _ hmod]
            have hdm := Nat.div_add_mod (m + 1) 10
            have hexp : a * 10 ^ (k + 1) = 10 * (a * 10 ^ k) := by ring
            rw [hexp]
            omega

theorem natDecChars_digits : ∀ n, ∀ c ∈ natDecChars n, isDigitCh c = true := by
  intro n c hc
  by_cases h : n = 0
  · subst h; rw [natDecChars] at hc; simp at hc; subst hc; decide
  · rw [natDecChars, if_neg h] at hc; exact decCore_digits _ _ _ hc

theorem natDecChars_ne_nil : ∀ n, natDecChars n ≠ [] := by
  intro n
  by_cases h : n = 0
  · subst h; simp [natDecChars]
  · rw [natDecChars, if_neg h]
    exact decCore_ne_nil _ _ (by omega) le_rfl

theorem parseNat_natDecChars : ∀ n, parseNat (natDecChars n) = some n := by
  intro n
  by_cases h : n = 0
  · subst h; decide
  · rw [natDecChars, if_neg h, parseNat]
    have hne := decCore_ne_nil n n (by omega) le_rfl
    have hempty : (decCore n n).isEmpty = false := by
      cases hd : decCore n n
      · exact absurd hd hne
      · rfl
    rw [hempty]
    have hall : (decCore n n).all isDigitCh = true :=
      List.all_eq_true.mpr (fun c hc => decCore_digits _ _ _ hc)
    rw [if_neg (by simp), if_pos hall]
    obtain ⟨k, _, hfold⟩ := decCore_foldl n n 0 (by omega) le_rfl
    rw [hfold]; simp

theorem parseIntTok_intDecChars : ∀ i : Int, parseIntTok (intDecChars i) = some i := by
  intro i
  by_cases hneg : i < 0
  · rw [intDecChars, if_pos hneg, parseIntTok]
    rw [if_pos rfl, parseNat_natDecChars]
    have : (↑i.natAbs : Int) = -i := Int.ofNat_natAbs_of_nonpos (le_of_lt hneg)
    simp [this]
  · rw [intDecChars, if_neg hneg]
    obtain ⟨c, rest, hcr⟩ : ∃ c rest, natDecChars i.toNat = c :: rest := by
      cases hd : natDecChars i.toNat
      · exact absurd hd (natDecChars_ne_nil _)
      · exact ⟨_, _, rfl⟩
    have hdig : isDigitCh c = true :=
      natDecChars_digits _ c (by rw [hcr]; exact List.mem_cons_self _ _)
    rw [hcr, parseIntTok, if_neg (isDigitCh_ne_dash hdig), if_neg (isDigitCh_ne_plus hdig),
        ← hcr, parseNat_natDecChars]
    simp
    omega

/-! ### Splitter / join lemmas -/

theorem splitWsAux_token : ∀ t s acc, (∀ c ∈ t, isPySpace c = false) →
    splitWsAux (t ++ s) acc = splitWsAux s (t.reverse ++ acc) := by
  intro t
  induction t with
  | nil => intro s acc _; simp
  | cons c t' ih =>
      intro s acc hclean
      have hc : isPySpace c = false := hclean c (List.mem_cons_self _ _)
      rw [List.cons_append, splitWsAux, hc]
      simp only [Bool.false_eq_true, if_false]
      rw [ih s (c :: acc) (fun d hd => hclean d (List.mem_cons_of_mem _ hd))]
      simp

theorem pySplit_joinSp : ∀ ts : List (List Char),
    (∀ t ∈ ts, t ≠ [] ∧ ∀ c ∈ t, isPySpace c = false) →
    pySplitWs (joinSp ts) = ts := by
  intro ts
  induction ts with
  | nil => intro _; rfl
  | cons t ts' ih =>
      intro hclean
      obtain ⟨htne, htc⟩ := hclean t (List.mem_cons_self _ _)
      cases ts' with
      | nil =>
          show pySplitWs (joinSp [t]) = [t]
          rw [joinSp, pySplitWs, ← List.append_nil t, splitWsAux_token t [] [] htc]
          rw [splitWsAux]
          have : t.reverse ++ [] ≠ [] := by simp [htne]
          rw [if_neg this]
          simp
      | cons t2 ts'' =>
          show pySplitWs (joinSp (t :: t2 :: ts'')) = t :: t2 :: ts''
          have hj : joinSp (t :: t2 :: ts'') = t ++ ' ' :: joinSp (t2 :: ts'') := rfl
          rw [hj, pySplitWs, splitWsAux_token t (' ' :: joinSp (t2 :: ts'')) [] htc]
          rw [splitWsAux]
          have hsp : isPySpace ' ' = true := by decide
          rw [hsp]
          simp only [if_true]
          have : t.reverse ++ [] ≠ [] := by simp [htne]
          rw [if_neg this]
          have ihr := ih (fun u hu => hclean u (List.mem_cons_of_mem _ hu))
          rw [pySplitWs] at ihr
          rw [ihr]
          simp

theorem intDecChars_ne_nil : ∀ i : Int, intDecChars i ≠ [] := by
  intro i
  rw [intDecChars]
  split
  · simp
  · exact natDecChars_ne_nil _

theorem intDecChars_no_space : ∀ (i : Int), ∀ c ∈ intDecChars i, isPySpace c = false := by
  intro i c hc
  rw [intDecChars] at hc
  split at hc
  · rcases List.mem_cons.mp hc with rfl | h2
    · decide
    · exact isDigitCh_not_space (natDecChars_digits _ _ h2)
  · exact isDigitCh_not_space (natDecChars_digits _ _ hc)

theorem parseAllInts_map : ∀ l : List Int,
    parseAllInts (l.map intDecChars) = some l := by
  intro l
  induction l with
  | nil => rfl
  | cons x xs ih =>
      rw [List.map_cons, parseAllInts, parseIntTok_intDecChars, ih]

/-- C9: round-trip — rendering a timing sequence as the space-joined
RAW_Data/data line and re-parsing it by whitespace splitting plus integer
conversion yields exactly the original sequence. -/
theorem raw_line_roundtrip : ∀ l : List Int, parseRawLine (renderRawLine l) = some l := by
  intro l
  rw [renderRawLine, parseRawLine,
      pySplit_joinSp (l.map intDecChars)
        (by
          intro t ht
          obtain ⟨i, _, rfl⟩ := List.mem_map.mp ht
          exact ⟨intDecChars_ne_nil i, intDecChars_no_space i⟩)]
  exact parseAllInts_map l

/-! ### C2: Manchester halves -/

theorem fdiv_neg_half (bt : Int) : Int.fdiv (-bt) 2 = -(bt - Int.fdiv bt 2) := by
  have h1 : Int.fdiv (-bt) 2 = (-bt) / 2 := Int.fdiv_eq_ediv _ (by norm_num)
  have h2 : Int.fdiv bt 2 = bt / 2 := Int.fdiv_eq_ediv _ (by norm_num)
  rw [h1, h2]
  omega

/-- C2 (counterexample): with the odd bit time 5 the Manchester encoder emits
`[2, -3]` for a `'1'` bit, not the claimed `[+⌊5/2⌋, -⌊5/2⌋] = [2, -2]`. -/
theorem manchester_pair_cex : generateManchester 5 ['1'] ≠ [2, -2] := by decide

/-- C2 (amended): for every positive bit time, the Manchester encoder emits
per `'1'` the pair `[⌊bt/2⌋, -(bt - ⌊bt/2⌋)]` and per `'0'` the mirrored
pair: Python `//` is floor division, so the negated half has magnitude
`⌈bt/2⌉` and the two magnitudes always sum to `bt` — for odd bit times no
microsecond is lost, the pair is merely asymmetric. -/
theorem manchester_floor_pairs : ∀ bitTime : Int, 0 < bitTime → ∀ data : List Char,
    generateManchester bitTime data =
      data.flatMap (fun bit =>
        if bit = '1' then [Int.fdiv bitTime 2, -(bitTime - Int.fdiv bitTime 2)]
        else if bit = '0' then [-(bitTime - Int.fdiv bitTime 2), Int.fdiv bitTime 2]
        else []) := by
  intro bt _ data
  rw [generateManchester]
  refine List.flatMap_congr (fun c _ => ?_)
  split_ifs <;> simp [fdiv_neg_half]

theorem manchester_floor_pairs_witness :
    generateManchester 5 ['1', '0'] = [2, -3, -3, 2] := by
  rw [manchester_floor_pairs 5 (by decide) ['1', '0']]
  decide

/-! ### C8: analyzer totality -/

theorem guardedStats_ok : ∀ l : List Int,
    ∃ o, guardedStats l = some o ∧ (o.isSome = true ↔ l ≠ []) := by
  intro l
  cases l with
  | nil => exact ⟨none, by simp [guardedStats], by simp⟩
  | cons x xs =>
      refine ⟨some ⟨xs.foldl min x, xs.foldl max x,
        Int.fdiv (x :: xs).sum (x :: xs).length⟩, ?_, by simp⟩
      simp [guardedStats, sideStatsOf, pyMin, pyMax, pyAvgFloor]

theorem filter_ne_nil_iff_any (p : Int → Bool) (l : List Int) :
    (l.filter p ≠ []) ↔ l.any p = true := by
  rw [Ne, List.filter_eq_nil_iff, List.any_eq_true]
  push_neg
  simp

/-- C8: the timing analyzer is total — on every sequence of signed integers
it succeeds (no division by zero, no rejection), reports the full count, and
produces a side's min/max/avg exactly when that side is nonempty (the
negative side being taken over absolute values). -/
theorem analyze_never_fails : ∀ timing : List Int,
    ∃ s, analyzeTiming timing = some s ∧
      s.total = timing.length ∧
      s.onStats.isSome = timing.any (fun x => decide (0 < x)) ∧
      s.offStats.isSome = timing.any (fun x => decide (x < 0)) := by
  intro timing
  obtain ⟨opos, hpe, hpi⟩ := guardedStats_ok (timing.filter (fun x => decide (0 < x)))
  obtain ⟨oneg, hne, hni⟩ :=
    guardedStats_ok ((timing.filter (fun x => decide (x < 0))).map (fun x => |x|))
  refine ⟨⟨timing.length, (timing.filter (fun x => decide (0 < x))).length,
    ((timing.filter (fun x => decide (x < 0))).map (fun x => |x|)).length, opos, oneg⟩,
    ?_, rfl, ?_, ?_⟩
  · unfold analyzeTiming
    rw [hpe, hne]
  · show opos.isSome = timing.any (fun x => decide (0 < x))
    have h1 := filter_ne_nil_iff_any (fun x => decide (0 < x)) timing
    cases hb : timing.any (fun x => decide (0 < x))
    · simp only [hb] at h1
      cases ho : opos.isSome
      · rfl
      · exact absurd (hpi.mp ho) (by simpa using h1)
    · exact hpi.mpr (by simpa using h1.mpr hb)
  · show oneg.isSome = timing.any (fun x => decide (x < 0))
    have h1 := filter_ne_nil_iff_any (fun x => decide (x < 0)) timing
    have hmapne : ((timing.filter (fun x => decide (x < 0))).map (fun x => |x|) ≠ []) ↔
        (timing.filter (fun x => decide (x < 0)) ≠ []) := by
      simp
    cases hb : timing.any (fun x => decide (x < 0))
    · simp only [hb] at h1
      cases ho : oneg.isSome
      · rfl
      · exact absurd (hmapne.mp (hni.mp ho)) (by simpa using h1)
    · exact hni.mpr (hmapne.mpr (by simpa using h1.mpr hb))

/-! ### C3/C10: key normalization -/

theorem mem_strip0x : ∀ (s : List Char) (c : Char), c ∈ strip0x s → c ∈ s := by
  intro s
  induction s using strip0x.induct with
  | case1 => intro c hc; simp [strip0x] at hc
  | case2 d => intro c hc; simpa [strip0x] using hc
  | case3 c1 c2 rest h12 ih =>
      intro c hc
      rw [strip0x, if_pos h12] at hc
      exact List.mem_cons_of_mem _ (List.mem_cons_of_mem _ (ih c hc))
  | case4 c1 c2 rest h12 ih =>
      intro c hc
      rw [strip0x, if_neg h12] at hc
      rcases List.mem_cons.mp hc with h1 | h2
      · exact List.mem_cons.mpr (Or.inl h1)
      · exact List.mem_cons_of_mem _ (ih c h2)

theorem mem_joinSp : ∀ (ts : List (List Char)) (c : Char),
    c ∈ joinSp ts → c = ' ' ∨ ∃ t ∈ ts, c ∈ t := by
  intro ts
  induction ts using joinSp.induct with
  | case1 => intro c hc; simp [joinSp] at hc
  | case2 t => intro c hc; exact Or.inr ⟨t, by simp, hc⟩
  | case3 t ts hne ih =>
      intro c hc
      cases ts with
      | nil => exact absurd rfl hne
      | cons u us =>
          have hj : joinSp (t :: u :: us) = t ++ ' ' :: joinSp (u :: us) := rfl
          rw [hj] at hc
          rcases List.mem_append.mp hc with h | h
          · exact Or.inr ⟨t, by simp, h⟩
          · rcases List.mem_cons.mp h with rfl | h2
            · exact Or.inl rfl
            · rcases ih c h2 with h3 | ⟨t', ht', hct'⟩
              · exact Or.inl h3
              · exact Or.inr ⟨t', List.mem_cons_of_mem _ ht', hct'⟩

theorem mem_chunk2 : ∀ (s t : List Char), t ∈ chunk2 s → ∀ c ∈ t, c ∈ s := by
  intro s
  induction s using chunk2.induct with
  | case1 => intro t ht; simp [chunk2] at ht
  | case2 a =>
      intro t ht c hc
      have : t = [a] := by simpa [chunk2] using ht
      subst this
      simpa using hc
  | case3 a b rest ih =>
      intro t ht c hc
      have hch : chunk2 (a :: b :: rest) = [a, b] :: chunk2 rest := rfl
      rw [hch] at ht
      rcases List.mem_cons.mp ht with rfl | ht2
      · rcases List.mem_cons.mp hc with rfl | hc2
        · simp
        · simp at hc2; simp [hc2]
      · exact List.mem_cons_of_mem _ (List.mem_cons_of_mem _ (ih t ht2 c hc))

theorem mem_groupPairs : ∀ (s : List Char) (c : Char),
    c ∈ groupPairs s → c = ' ' ∨ c ∈ s := by
  intro s c hc
  rcases mem_joinSp _ c hc with h | ⟨t, ht, hct⟩
  · exact Or.inl h
  · exact Or.inr (mem_chunk2 s t ht c hct)

theorem pyZfill_nil (w : Nat) :
    pyZfill w [] = if w ≤ 0 then [] else List.replicate w '0' := rfl

theorem pyZfill_cons (w : Nat) (c0 : Char) (rest : List Char) :
    pyZfill w (c0 :: rest) =
      if w ≤ (c0 :: rest).length then c0 :: rest
      else if c0 = '-' ∨ c0 = '+' then
        c0 :: (List.replicate (w - (c0 :: rest).length) '0' ++ rest)
      else List.replicate (w - (c0 :: rest).length) '0' ++ c0 :: rest := rfl

theorem mem_pyZfill : ∀ (w : Nat) (s : List Char) (c : Char),
    c ∈ pyZfill w s → c = '0' ∨ c ∈ s := by
  intro w s c
  cases s with
  | nil =>
      intro hc
      rw [pyZfill_nil] at hc
      split at hc
      · exact Or.inr hc
      · exact Or.inl (List.eq_of_mem_replicate hc)
  | cons c0 rest =>
      intro hc
      rw [pyZfill_cons] at hc
      split at hc
      · exact Or.inr hc
      · split at hc
        · rcases List.mem_cons.mp hc with rfl | h2
          · exact Or.inr (List.mem_cons_self _ _)
          · rcases List.mem_append.mp h2 with h3 | h4
            · exact Or.inl (List.eq_of_mem_replicate h3)
            · exact Or.inr (List.mem_cons_of_mem _ h4)
        · rcases List.mem_append.mp hc with h3 | h4
          · exact Or.inl (List.eq_of_mem_replicate h3)
          · exact Or.inr h4

theorem normalizeKey_provenance : ∀ (key : List Char) (hexChars : Nat) (c : Char),
    c ∈ normalizeKey key hexChars → c = ' ' ∨ c = '0' ∨ ∃ d ∈ key, c = Char.toUpper d := by
  intro key hexChars c hc
  rw [normalizeKey] at hc
  split at hc
  · simp_all
  · have hk2 : ∀ e, e ∈ upperAscii (dropSpaces (strip0x key)) →
        ∃ d ∈ key, e = Char.toUpper d := by
      intro e he
      obtain ⟨d, hd, rfl⟩ := List.mem_map.mp he
      have hd2 : d ∈ strip0x key := (List.mem_filter.mp hd).1
      exact ⟨d, mem_strip0x _ _ hd2, rfl⟩
    rcases mem_groupPairs _ c hc with h | h
    · exact Or.inl h
    · right
      split at h
      · exact Or.inr (hk2 c (List.mem_of_mem_take h))
      · split at h
        · rcases mem_pyZfill _ _ _ h with h0 | h1
          · exact Or.inl h0
          · exact Or.inr (hk2 c h1)
        · exact Or.inr (hk2 c h)

/-- C3 (counterexample): the input `"gg"` contains no hex digit yet
normalization succeeds and returns `"GG"` — no `InvalidHex` failure exists in
the code, and the non-hex characters survive into the normalized field. -/
theorem normalize_hex_cex :
    normalizeKey ['g', 'g'] 2 = ['G', 'G'] ∧ isHexDigitCh 'G' = false := by decide

/-- C3 (amended): hex-key normalization never fails: it removes `0x`
occurrences and spaces, uppercases, truncates or left-zero-pads, and regroups
with spaces — every output character is a group separator, a `'0'` pad, or the
uppercased copy of some input character, with no hex-digit validation ever
applied (non-hex characters are preserved rather than rejected). -/
theorem normalize_hex_no_validation : ∀ (key : List Char) (hexChars : Nat),
    (normalizeKey key hexChars).all
      (fun c => c == ' ' || c == '0' || key.any (fun d => c == Char.toUpper d)) = true := by
  intro key hexChars
  rw [List.all_eq_true]
  intro c hc
  simp only [Bool.or_eq_true, beq_iff_eq, List.any_eq_true]
  rcases normalizeKey_provenance key hexChars c hc with h | h | ⟨d, hd, he⟩
  · exact Or.inl (Or.inl h)
  · exact Or.inl (Or.inr h)
  · exact Or.inr ⟨d, hd, he⟩

/-! ### Serializer line membership -/

theorem bool_false_ne_true {b : Bool} (h : b = false) : ¬b = true := by simp [h]

theorem mem_guard_sing {α : Type} {P : Prop} [Decidable P] {a x : α}
    (h : a ∈ (if P then [x] else ([] : List α))) : P ∧ a = x := by
  split at h
  · next hP => exact ⟨hP, by simpa using h⟩
  · simp at h

theorem mem_createSubghzLines {r : SubGhzRec} {l : List Char}
    (hl : l ∈ createSubghzLines r) :
    l = ftLine ∨ l = verLine ∨ l = freqLine r ∨ l = presetLine r ∨ l = protoLine r ∨
    (r.protocol = rawName ∧ l = rawDataLine r) ∨
    (r.protocol ≠ rawName ∧ r.bitCount ≠ 0 ∧ l = bitLine r) ∨
    (r.protocol ≠ rawName ∧ r.key ≠ [] ∧ l = keyLine r) ∨
    (r.protocol ≠ rawName ∧ r.te ≠ 0 ∧ l = teLine r) ∨
    (r.protocol ≠ rawName ∧ r.dataHex ≠ [] ∧ l = dataLine r) ∨
    (r.protocol ≠ rawName ∧ 1 < r.repeatCount ∧ l = repeatLine r) := by
  rw [createSubghzLines] at hl
  rcases List.mem_append.mp hl with h | h
  · simp only [List.mem_cons, List.not_mem_nil, or_false] at h
    rcases h with rfl | rfl | rfl | rfl | rfl
    · exact Or.inl rfl
    · exact Or.inr (Or.inl rfl)
    · exact Or.inr (Or.inr (Or.inl rfl))
    · exact Or.inr (Or.inr (Or.inr (Or.inl rfl)))
    · exact Or.inr (Or.inr (Or.inr (Or.inr (Or.inl rfl))))
  · by_cases hp : r.protocol = rawName
    · rw [if_pos hp] at h
      have he : l = rawDataLine r := by simpa using h
      exact Or.inr (Or.inr (Or.inr (Or.inr (Or.inr (Or.inl ⟨hp, he⟩)))))
    · rw [if_neg hp] at h
      rcases List.mem_append.mp h with h | h
      · rcases List.mem_append.mp h with h | h
        · rcases List.mem_append.mp h with h | h
          · rcases List.mem_append.mp h with h | h
            · obtain ⟨hc, rfl⟩ := mem_guard_sing h
              exact Or.inr (Or.inr (Or.inr (Or.inr (Or.inr (Or.inr
                (Or.inl ⟨hp, hc, rfl⟩))))))
            · obtain ⟨hc, rfl⟩ := mem_guard_sing h
              exact Or.inr (Or.inr (Or.inr (Or.inr (Or.inr (Or.inr (Or.inr
                (Or.inl ⟨hp, hc, rfl⟩)))))))
          · obtain ⟨hc, rfl⟩ := mem_guard_sing h
            exact Or.inr (Or.inr (Or.inr (Or.inr (Or.inr (Or.inr (Or.inr (Or.inr
              (Or.inl ⟨hp, hc, rfl⟩))))))))
        · obtain ⟨hc, rfl⟩ := mem_guard_sing h
          exact Or.inr (Or.inr (Or.inr (Or.inr (Or.inr (Or.inr (Or.inr (Or.inr (Or.inr
            (Or.inl ⟨hp, hc, rfl⟩)))))))))
      · obtain ⟨hc, rfl⟩ := mem_guard_sing h
        exact Or.inr (Or.inr (Or.inr (Or.inr (Or.inr (Or.inr (Or.inr (Or.inr (Or.inr
          (Or.inr ⟨hp, hc, rfl⟩)))))))))

theorem hasTag_false_of_all {p : List Char} {r : SubGhzRec}
    (h1 : p.isPrefixOf ftLine = false) (h2 : p.isPrefixOf verLine = false)
    (h3 : p.isPrefixOf (freqLine r) = false) (h4 : p.isPrefixOf (presetLine r) = false)
    (h5 : p.isPrefixOf (protoLine r) = false)
    (h6 : r.protocol = rawName → p.isPrefixOf (rawDataLine r) = false)
    (h7 : r.protocol ≠ rawName → r.bitCount ≠ 0 → p.isPrefixOf (bitLine r) = false)
    (h8 : r.protocol ≠ rawName → r.key ≠ [] → p.isPrefixOf (keyLine r) = false)
    (h9 : r.protocol ≠ rawName → r.te ≠ 0 → p.isPrefixOf (teLine r) = false)
    (h10 : r.protocol ≠ rawName → r.dataHex ≠ [] → p.isPrefixOf (dataLine r) = false)
    (h11 : r.protocol ≠ rawName → 1 < r.repeatCount → p.isPrefixOf (repeatLine r) = false) :
    hasTag p (createSubghzLines r) = false := by
  rw [hasTag, List.any_eq_false]
  intro l hl
  rcases mem_createSubghzLines hl with
    rfl | rfl | rfl | rfl | rfl | ⟨hp, rfl⟩ | ⟨hq, hb, rfl⟩ | ⟨hq, hk, rfl⟩ |
    ⟨hq, ht, rfl⟩ | ⟨hq, hd, rfl⟩ | ⟨hq, hr, rfl⟩
  · exact bool_false_ne_true h1
  · exact bool_false_ne_true h2
  · exact bool_false_ne_true h3
  · exact bool_false_ne_true h4
  · exact bool_false_ne_true h5
  · exact bool_false_ne_true (h6 hp)
  · exact bool_false_ne_true (h7 hq hb)
  · exact bool_false_ne_true (h8 hq hk)
  · exact bool_false_ne_true (h9 hq ht)
  · exact bool_false_ne_true (h10 hq hd)
  · exact bool_false_ne_true (h11 hq hr)

theorem hasTag_te_false {r : SubGhzRec} (hte : r.te = 0) :
    hasTag teTag (createSubghzLines r) = false :=
  hasTag_false_of_all rfl rfl rfl rfl rfl (fun _ => rfl) (fun _ _ => rfl)
    (fun _ _ => rfl) (fun _ hne => absurd hte hne) (fun _ _ => rfl) (fun _ _ => rfl)

theorem hasTag_key_false {r : SubGhzRec} (hkey : r.key = []) :
    hasTag keyTag (createSubghzLines r) = false :=
  hasTag_false_of_all rfl rfl rfl rfl rfl (fun _ => rfl) (fun _ _ => rfl)
    (fun _ hne => absurd hkey hne) (fun _ _ => rfl) (fun _ _ => rfl) (fun _ _ => rfl)

theorem hasTag_raw_false_nonraw {r : SubGhzRec} (hp : r.protocol ≠ rawName) :
    hasTag rawTag (createSubghzLines r) = false :=
  hasTag_false_of_all rfl rfl rfl rfl rfl (fun h => absurd h hp) (fun _ _ => rfl)
    (fun _ _ => rfl) (fun _ _ => rfl) (fun _ _ => rfl) (fun _ _ => rfl)

theorem hasStructTag_raw_false {r : SubGhzRec} (hp : r.protocol = rawName) :
    hasStructTag (createSubghzLines r) = false := by
  have hb : hasTag bitTag (createSubghzLines r) = false :=
    hasTag_false_of_all rfl rfl rfl rfl rfl (fun _ => rfl) (fun hq _ => absurd hp hq)
      (fun _ _ => rfl) (fun _ _ => rfl) (fun _ _ => rfl) (fun _ _ => rfl)
  have hk : hasTag keyTag (createSubghzLines r) = false :=
    hasTag_false_of_all rfl rfl rfl rfl rfl (fun _ => rfl) (fun _ _ => rfl)
      (fun hq _ => absurd hp hq) (fun _ _ => rfl) (fun _ _ => rfl) (fun _ _ => rfl)
  have ht : hasTag teTag (createSubghzLines r) = false :=
    hasTag_false_of_all rfl rfl rfl rfl rfl (fun _ => rfl) (fun _ _ => rfl)
      (fun _ _ => rfl) (fun hq _ => absurd hp hq) (fun _ _ => rfl) (fun _ _ => rfl)
  have hd : hasTag dataTag (createSubghzLines r) = false :=
    hasTag_false_of_all rfl rfl rfl rfl rfl (fun _ => rfl) (fun _ _ => rfl)
      (fun _ _ => rfl) (fun _ _ => rfl) (fun hq _ => absurd hp hq) (fun _ _ => rfl)
  have hr : hasTag repeatTag (createSubghzLines r) = false :=
    hasTag_false_of_all rfl rfl rfl rfl rfl (fun _ => rfl) (fun _ _ => rfl)
      (fun _ _ => rfl) (fun _ _ => rfl) (fun _ _ => rfl) (fun hq _ => absurd hp hq)
  rw [hasStructTag, hb, hk, ht, hd, hr]
  rfl

theorem rawTag_pre (r : SubGhzRec) : rawTag.isPrefixOf (rawDataLine r) = true := by
  simp [rawTag, rawDataLine, List.isPrefixOf]

theorem teTag_pre (r : SubGhzRec) : teTag.isPrefixOf (teLine r) = true := by
  simp [teTag, teLine, List.isPrefixOf]

theorem bitTag_pre (r : SubGhzRec) : bitTag.isPrefixOf (bitLine r) = true := by
  simp [bitTag, bitLine, List.isPrefixOf]

theorem hasTag_raw_true {r : SubGhzRec} (hp : r.protocol = rawName) :
    hasTag rawTag (createSubghzLines r) = true := by
  rw [hasTag, List.any_eq_true]
  refine ⟨rawDataLine r, ?_, rawTag_pre r⟩
  rw [createSubghzLines]
  refine List.mem_append.mpr (Or.inr ?_)
  rw [if_pos hp]
  simp

theorem hasTag_te_true {r : SubGhzRec} (hp : r.protocol ≠ rawName) (hte : r.te ≠ 0) :
    hasTag teTag (createSubghzLines r) = true := by
  rw [hasTag, List.any_eq_true]
  refine ⟨teLine r, ?_, teTag_pre r⟩
  rw [createSubghzLines]
  refine List.mem_append.mpr (Or.inr ?_)
  rw [if_neg hp]
  refine List.mem_append.mpr (Or.inl (List.mem_append.mpr (Or.inl
    (List.mem_append.mpr (Or.inr ?_)))))
  rw [if_pos hte]
  simp

theorem hasTag_bit_true {r : SubGhzRec} (hp : r.protocol ≠ rawName) (hb : r.bitCount ≠ 0) :
    hasTag bitTag (createSubghzLines r) = true := by
  rw [hasTag, List.any_eq_true]
  refine ⟨bitLine r, ?_, bitTag_pre r⟩
  rw [createSubghzLines]
  refine List.mem_append.mpr (Or.inr ?_)
  rw [if_neg hp]
  refine List.mem_append.mpr (Or.inl (List.mem_append.mpr (Or.inl
    (List.mem_append.mpr (Or.inl (List.mem_append.mpr (Or.inl ?_)))))))
  rw [if_pos hb]
  simp

/-! ### C1: the Holtek sample record -/

/-- The protocol name `"Holtek"`. -/
def holtekName : List Char := ['H','o','l','t','e','k']

/-- The Holtek record of the spec's sample: frequency 418000000, key the
normalization of `"52AAAABBCCDDEEFF"` to 10 bytes (20 hex characters),
bit count 40, no TE, no data, repeat 1. -/
def holtekRecC1 : SubGhzRec :=
  { protocol := holtekName, frequency := 418000000, preset := none,
    rawData := [], bitCount := 40, key := normalizeKey
      ['5','2','A','A','A','A','B','B','C','C','D','D','E','E','F','F'] 20,
    dataHex := [], te := 0, repeatCount := 1 }

/-- C1 (counterexample): the serialized Holtek record has 7 lines (Filetype,
Version, Frequency, Preset, Protocol, Bit, Key), not the claimed 6 — both as
emitted lines and as newline-terminated physical lines of the content. -/
theorem holtek_six_lines_cex :
    (createSubghzLines holtekRecC1).length ≠ 6 ∧
      (createSubghzContent holtekRecC1).count '\n' ≠ 6 := by decide

/-- C1 (amended): serializing the Holtek sample record produces exactly 7
lines, with no RAW_Data line and no TE line. -/
theorem holtek_seven_lines :
    (createSubghzLines holtekRecC1).length = 7 ∧
      (createSubghzContent holtekRecC1).count '\n' = 7 ∧
      hasTag rawTag (createSubghzLines holtekRecC1) = false ∧
      hasTag teTag (createSubghzLines holtekRecC1) = false := by decide

/-! ### C6: the TE line -/

/-- C6: through the wizard's parameter assembly and the serializer, a TE line
is emitted exactly when the protocol is not `"RAW"`, its catalog entry
requires a timing element, and a (truthy) TE value was given; in particular a
protocol that does not need TE never gets a TE line even when a value is
supplied. -/
theorem te_line_only_when_needed : ∀ (proto : List Char) (info : ProtoInfo)
    (freq : Nat) (rawD : List Int) (key dat : List Char) (te : Int) (rep : Nat),
    lookupSubghz proto = some info →
    (hasTag teTag (createSubghzLines
        (wizardRecord proto freq rawD key dat te rep info)) = true ↔
      proto ≠ rawName ∧ info.needsTe = true ∧ te ≠ 0) := by
  intro proto info freq rawD key dat te rep _
  by_cases hp : proto = rawName
  · rw [wizardRecord, if_pos hp]
    constructor
    · intro h
      rw [hasTag_te_false rfl] at h
      simp at h
    · rintro ⟨hne, _, _⟩
      exact absurd hp hne
  · rw [wizardRecord, if_neg hp]
    by_cases hc : info.needsTe = true ∧ te ≠ 0
    · rw [if_pos hc]
      constructor
      · intro _
        exact ⟨hp, hc.1, hc.2⟩
      · intro _
        exact hasTag_te_true hp hc.2
    · rw [if_neg hc]
      constructor
      · intro h
        rw [hasTag_te_false rfl] at h
        simp at h
      · rintro ⟨_, hn, ht⟩
        exact absurd ⟨hn, ht⟩ hc

theorem te_line_only_when_needed_witness :
    (hasTag teTag (createSubghzLines
        (wizardRecord holtekName 418000000 [] [] [] 400 1 ⟨40, 10, false, none⟩)) = true ↔
      holtekName ≠ rawName ∧ (⟨40, 10, false, none⟩ : ProtoInfo).needsTe = true ∧
        (400 : Int) ≠ 0) :=
  te_line_only_when_needed holtekName ⟨40, 10, false, none⟩ 418000000 [] [] [] 400 1 rfl

/-! ### C7: branch exclusivity and trailing newline -/

/-- C7: every serialized record has the RAW_Data line exactly when its
protocol is `"RAW"`, never both a RAW_Data line and a structured
Bit/Key/TE/Data/Repeat line; a non-RAW record (whose mandatory bit count is
present, i.e. nonzero) always gets a structured line; and the content always
ends with a trailing newline. -/
theorem subghz_branch_exclusive : ∀ r : SubGhzRec,
    (hasTag rawTag (createSubghzLines r) = true ↔ r.protocol = rawName) ∧
    ¬(hasTag rawTag (createSubghzLines r) = true ∧
        hasStructTag (createSubghzLines r) = true) ∧
    (r.protocol ≠ rawName → r.bitCount ≠ 0 →
        hasStructTag (createSubghzLines r) = true) ∧
    (∃ s, createSubghzContent r = s ++ ['\n']) := by
  intro r
  have hiff : hasTag rawTag (createSubghzLines r) = true ↔ r.protocol = rawName := by
    constructor
    · intro h
      by_contra hp
      rw [hasTag_raw_false_nonraw hp] at h
      simp at h
    · exact hasTag_raw_true
  refine ⟨hiff, ?_, ?_, ⟨joinNl (createSubghzLines r), rfl⟩⟩
  · rintro ⟨h1, h2⟩
    rw [hasStructTag_raw_false (hiff.mp h1)] at h2
    simp at h2
  · intro hp hb
    rw [hasStructTag, hasTag_bit_true hp hb]
    rfl

/-- A concrete RAW record used to witness C7. -/
def rawRecC7 : SubGhzRec :=
  { protocol := rawName, frequency := 315000000, preset := none,
    rawData := [500, -500, 1000, -500], bitCount := 0, key := [],
    dataHex := [], te := 0, repeatCount := 1 }

theorem subghz_branch_exclusive_witness :
    (hasTag rawTag (createSubghzLines rawRecC7) = true ↔ rawRecC7.protocol = rawName) ∧
    ¬(hasTag rawTag (createSubghzLines rawRecC7) = true ∧
        hasStructTag (createSubghzLines rawRecC7) = true) ∧
    (rawRecC7.protocol ≠ rawName → rawRecC7.bitCount ≠ 0 →
        hasStructTag (createSubghzLines rawRecC7) = true) ∧
    (∃ s, createSubghzContent rawRecC7 = s ++ ['\n']) :=
  subghz_branch_exclusive rawRecC7

/-! ### C10: the empty key -/

/-- C10: normalizing an empty raw key returns the empty string unchanged (no
zero-padding to the protocol width), and serialization of any record carrying
that empty key emits no Key line. -/
theorem empty_key_omitted : ∀ (n : Nat) (r : SubGhzRec),
    r.key = normalizeKey [] n →
    normalizeKey [] n = [] ∧ hasTag keyTag (createSubghzLines r) = false := by
  intro n r hk
  refine ⟨rfl, hasTag_key_false ?_⟩
  rw [hk]
  rfl

theorem empty_key_omitted_witness :
    normalizeKey [] 20 = [] ∧
      hasTag keyTag (createSubghzLines
        { protocol := holtekName, frequency := 418000000, preset := none,
          rawData := [], bitCount := 40, key := normalizeKey [] 20,
          dataHex := [], te := 0, repeatCount := 1 }) = false :=
  empty_key_omitted 20 _ rfl

/-! ### C4/C5: NEC-like encoder -/

theorem binCore_zero_fuelless : ∀ f, binCore f 0 = [] := by
  intro f; cases f <;> rfl

theorem binCore_fuel_irrel : ∀ f g n, n ≤ f → n ≤ g → binCore f n = binCore g n := by
  intro f
  induction f with
  | zero =>
      intro g n h1 _
      have h0 : n = 0 := by omega
      subst h0
      rw [binCore_zero_fuelless, binCore_zero_fuelless]
  | succ f ih =>
      intro g n h1 h2
      cases n with
      | zero => rw [binCore_zero_fuelless, binCore_zero_fuelless]
      | succ m =>
          cases g with
          | zero => omega
          | succ g' =>
              show binCore (f + 1) (m + 1) = binCore (g' + 1) (m + 1)
              rw [binCore, binCore]
              rw [ih g' ((m + 1) / 2) (by omega) (by omega)]

theorem bitCh_cases : ∀ d, bitCh d = '0' ∨ bitCh d = '1' := by
  intro d
  rw [bitCh]
  split
  · exact Or.inr rfl
  · exact Or.inl rfl

theorem binCore_bits : ∀ f n c, c ∈ binCore f n → c = '0' ∨ c = '1' := by
  intro f
  induction f with
  | zero => intro n c hc; simp [binCore] at hc
  | succ f ih =>
      intro n c hc
      cases n with
      | zero => simp [binCore] at hc
      | succ m =>
          rw [binCore] at hc
          rcases List.mem_append.mp hc with h | h
          · exact ih _ _ h
          · rcases List.mem_singleton.mp h with rfl
            exact bitCh_cases _

theorem natBinChars_bits : ∀ n c, c ∈ natBinChars n → c = '0' ∨ c = '1' := by
  intro n c hc
  by_cases h : n = 0
  · subst h
    rw [natBinChars] at hc
    simp at hc
    exact Or.inl hc
  · rw [natBinChars, if_neg h] at hc
    exact binCore_bits _ _ _ hc

theorem natBinChars_ne_nil : ∀ n, natBinChars n ≠ [] := by
  intro n
  by_cases h : n = 0
  · subst h; simp [natBinChars]
  · rw [natBinChars, if_neg h]
    cases n with
    | zero => exact absurd rfl h
    | succ m => rw [binCore]; simp

theorem natBinChars_succ : ∀ n, 2 ≤ n →
    natBinChars n = natBinChars (n / 2) ++ [bitCh (n % 2)] := by
  intro n h2
  cases n with
  | zero => omega
  | succ m =>
      rw [natBinChars, if_neg (by omega), binCore]
      have hq : 1 ≤ (m + 1) / 2 := by omega
      rw [natBinChars, if_neg (by omega)]
      rw [binCore_fuel_irrel m ((m + 1) / 2) ((m + 1) / 2) (by omega) le_rfl]

theorem natBinChars_lt : ∀ n, n < 2 ^ (natBinChars n).length := by
  intro n
  induction n using Nat.strong_induction_on with
  | _ n ih =>
      by_cases h0 : n = 0
      · subst h0; decide
      · by_cases h1 : n = 1
        · subst h1; decide
        · have h2 : 2 ≤ n := by omega
          rw [natBinChars_succ n h2]
          have ihq := ih (n / 2) (by omega)
          rw [List.length_append, List.length_cons, List.length_nil]
          have hp : 2 ^ ((natBinChars (n / 2)).length + (0 + 1)) =
              2 * 2 ^ (natBinChars (n / 2)).length := by ring
          rw [hp]
          omega

theorem pyZfill_pad_formula : ∀ (w : Nat) (c0 : Char) (rest : List Char),
    c0 ≠ '-' → c0 ≠ '+' →
    pyZfill w (c0 :: rest) =
      List.replicate (w - (c0 :: rest).length) '0' ++ (c0 :: rest) := by
  intro w c0 rest hm hp
  rw [pyZfill_cons]
  split
  · next hle =>
      rw [Nat.sub_eq_zero_of_le hle]
      simp
  · rw [if_neg (not_or.mpr ⟨hm, hp⟩)]

theorem zfill_binChars_bits : ∀ w n, 0 < w → n < 2 ^ w →
    pyZfill w (natBinChars n) =
      (List.range w).map (fun i => bitCh (n / 2 ^ (w - 1 - i) % 2)) := by
  intro w
  induction w with
  | zero => intro n h; omega
  | succ w ih =>
      intro n _ hn
      by_cases hw : w = 0
      · subst hw
        interval_cases n <;> decide
      · have hw1 : 0 < w := Nat.pos_of_ne_zero hw
        rw [List.range_succ, List.map_append]
        have hmap : (List.range w).map (fun i => bitCh (n / 2 ^ (w + 1 - 1 - i) % 2)) =
            (List.range w).map (fun i => bitCh (n / 2 / 2 ^ (w - 1 - i) % 2)) := by
          refine List.map_congr_left (fun i hi => ?_)
          have hiw : i < w := List.mem_range.mp hi
          have hdd : n / 2 ^ (w + 1 - 1 - i) = n / 2 / 2 ^ (w - 1 - i) := by
            rw [Nat.div_div_eq_div_mul]
            congr 1
            rw [show w + 1 - 1 - i = (w - 1 - i) + 1 by omega, pow_succ]
            ring
          rw [hdd]
        rw [hmap]
        have hlast : (List.map (fun i => bitCh (n / 2 ^ (w + 1 - 1 - i) % 2)) [w]) =
            [bitCh (n % 2)] := by
          simp only [List.map_cons, List.map_nil]
          rw [show w + 1 - 1 - w = 0 by omega]
          simp
        rw [hlast]
        have hn2 : n / 2 < 2 ^ w := by
          have hp : 2 ^ (w + 1) = 2 * 2 ^ w := by ring
          omega
        rw [← ih (n / 2) hw1 hn2]
        by_cases h0 : n = 0
        · subst h0
          show pyZfill (w + 1) (natBinChars 0) =
            pyZfill w (natBinChars (0 / 2)) ++ [bitCh (0 % 2)]
          rw [show (0 : Nat) / 2 = 0 from rfl, show bitCh (0 % 2) = '0' from rfl]
          rw [show natBinChars 0 = ['0'] from rfl]
          rw [pyZfill_pad_formula (w + 1) '0' [] (by decide) (by decide),
              pyZfill_pad_formula w '0' [] (by decide) (by decide)]
          rw [show (w + 1 - (['0'] : List Char).length) = w by simp]
          rw [show (w - (['0'] : List Char).length) = w - 1 by simp]
          rw [show List.replicate w '0' = List.replicate (w - 1) '0' ++ ['0'] from by
            conv_lhs => rw [show w = (w - 1) + 1 by omega]
            rw [List.replicate_succ']]
        · by_cases h1 : n = 1
          · subst h1
            show pyZfill (w + 1) (natBinChars 1) =
              pyZfill w (natBinChars (1 / 2)) ++ [bitCh (1 % 2)]
            rw [show (1 : Nat) / 2 = 0 from rfl, show bitCh (1 % 2) = '1' from rfl]
            rw [show natBinChars 1 = ['1'] from rfl, show natBinChars 0 = ['0'] from rfl]
            rw [pyZfill_pad_formula (w + 1) '1' [] (by decide) (by decide),
                pyZfill_pad_formula w '0' [] (by decide) (by decide)]
            rw [show (w + 1 - (['1'] : List Char).length) = w by simp]
            rw [show (w - (['0'] : List Char).length) = w - 1 by simp]
            rw [show List.replicate w '0' = List.replicate (w - 1) '0' ++ ['0'] from by
              conv_lhs => rw [show w = (w - 1) + 1 by omega]
              rw [List.replicate_succ']]
          · have h2 : 2 ≤ n := by omega
            rw [natBinChars_succ n h2]
            obtain ⟨c0, rest, hL⟩ : ∃ c0 rest, natBinChars (n / 2) = c0 :: rest := by
              cases hd : natBinChars (n / 2)
              · exact absurd hd (natBinChars_ne_nil _)
              · exact ⟨_, _, rfl⟩
            have hc0 : c0 = '0' ∨ c0 = '1' :=
              natBinChars_bits (n / 2) c0 (by rw [hL]; exact List.mem_cons_self _ _)
            have hm : c0 ≠ '-' := by rcases hc0 with rfl | rfl <;> decide
            have hpp : c0 ≠ '+' := by rcases hc0 with rfl | rfl <;> decide
            rw [hL]
            rw [show (c0 :: rest) ++ [bitCh (n % 2)] = c0 :: (rest ++ [bitCh (n % 2)]) from rfl]
            rw [pyZfill_pad_formula (w + 1) c0 (rest ++ [bitCh (n % 2)]) hm hpp,
                pyZfill_pad_formula w c0 rest hm hpp]
            rw [show w + 1 - (c0 :: (rest ++ [bitCh (n % 2)])).length =
                w - (c0 :: rest).length from by simp]
            simp

theorem necBitTiming_len : ∀ c, (necBitTiming c).length = 2 := by
  intro c
  rw [necBitTiming]
  split <;> rfl

theorem flatMap_const2_len : ∀ (l : List Char) (f : Char → List Int),
    (∀ b, (f b).length = 2) → (l.flatMap f).length = 2 * l.length := by
  intro l f hf
  induction l with
  | nil => rfl
  | cons x xs ih =>
      rw [List.flatMap_cons, List.length_append, ih, hf, List.length_cons]
      ring

theorem necBit_bitCh : ∀ d : Nat, necBitTiming (bitCh d) =
    if d = 1 then [560, -1690] else [560, -560] := by
  intro d
  by_cases hd : d = 1
  · subst hd; decide
  · rw [bitCh, if_neg hd, necBitTiming, if_neg (by decide), if_neg hd]

theorem natBinChars_long : ∀ n, 2 ^ 32 ≤ n → 32 < (natBinChars n).length := by
  intro n h
  have h2 := natBinChars_lt n
  by_contra hle
  push_neg at hle
  have h3 : 2 ^ (natBinChars n).length ≤ 2 ^ 32 :=
    Nat.pow_le_pow_right (by omega) hle
  omega

/-- C4 (counterexample): the hex input `"100000000"` parses to `2^32`, which
does not fit in 32 bits, yet the encoder does not fail — it returns a timing
sequence. -/
theorem nec_overlong_cex :
    pyIntHex (stripNecMarker ['1','0','0','0','0','0','0','0','0']) = some 4294967296 ∧
      ¬generateNecLike ['1','0','0','0','0','0','0','0','0'] = none := by decide

/-- C4 (amended): the NEC-like encoder fails exactly when `int(data, 16)`
fails, i.e. for syntactically invalid hex only; every parseable value is
encoded, and a value of `2^32` or more yields a timing sequence strictly
longer than 67 elements (`zfill(32)` never truncates). -/
theorem nec_parse_only_failure :
    (∀ s : List Char, generateNecLike s = none ↔ pyIntHex (stripNecMarker s) = none) ∧
    (∀ (s : List Char) (v : Int), pyIntHex (stripNecMarker s) = some v →
      (2 : Int) ^ 32 ≤ v → ∃ p, generateNecLike s = some p ∧ 67 < p.length) := by
  constructor
  · intro s
    rw [generateNecLike]
    cases h : pyIntHex (stripNecMarker s) <;> simp
  · intro s v hp hv
    rw [generateNecLike, hp]
    refine ⟨_, rfl, ?_⟩
    have hv0 : (0 : Int) ≤ v := le_trans (by norm_num) hv
    have hbd : pyBinDrop2 v = natBinChars v.toNat := by
      rw [pyBinDrop2, if_neg (by omega)]
    rw [hbd]
    have hvN : 2 ^ 32 ≤ v.toNat := by
      rw [show ((2 : Int) ^ 32 : Int) = 4294967296 from by norm_num] at hv
      rw [show (2 : Nat) ^ 32 = 4294967296 from by norm_num]
      omega
    have hlong : 32 < (natBinChars v.toNat).length := natBinChars_long _ hvN
    have hzf : pyZfill 32 (natBinChars v.toNat) = natBinChars v.toNat := by
      rw [pyZfill.eq_def, if_pos (by omega)]
    rw [hzf]
    have h2 := flatMap_const2_len (natBinChars v.toNat) necBitTiming necBitTiming_len
    rw [List.length_append, List.length_append, h2]
    simp only [List.length_cons, List.length_nil]
    omega

theorem nec_parse_only_failure_witness :
    ∃ p, generateNecLike ['1','0','0','0','0','0','0','0','0'] = some p ∧ 67 < p.length :=
  nec_parse_only_failure.2 ['1','0','0','0','0','0','0','0','0'] 4294967296
    (by decide) (by norm_num)

/-- C5: for every hex input parsing to a value below `2^32`, the NEC-like
encoder produces the leader `[9000, -4500]`, then for each bit of the
most-significant-first 32-bit expansion the pair `[560, -1690]` (bit 1) or
`[560, -560]` (bit 0), then a single trailing `560` — 67 elements in all,
ending on the lone stop mark. -/
theorem nec_like_32bit : ∀ (s : List Char) (v : Int),
    pyIntHex (stripNecMarker s) = some v → 0 ≤ v → v < 2 ^ 32 →
    ∃ p, generateNecLike s = some p ∧
      p = [9000, -4500] ++
        ((List.range 32).map (fun i => v.toNat / 2 ^ (31 - i) % 2)).flatMap
          (fun d => if d = 1 then [560, -1690] else [560, -560]) ++ [560] ∧
      p.length = 67 ∧ p.getLast? = some 560 := by
  intro s v hparse hv0 hv32
  have hbd : pyBinDrop2 v = natBinChars v.toNat := by
    rw [pyBinDrop2, if_neg (by omega)]
  have hvN : v.toNat < 2 ^ 32 := by
    rw [show ((2 : Int) ^ 32 : Int) = 4294967296 from by norm_num] at hv32
    rw [show (2 : Nat) ^ 32 = 4294967296 from by norm_num]
    omega
  have hz := zfill_binChars_bits 32 v.toNat (by omega) hvN
  have hAB : ((List.range 32).map (fun i => bitCh (v.toNat / 2 ^ (32 - 1 - i) % 2))).flatMap
      necBitTiming =
      ((List.range 32).map (fun i => v.toNat / 2 ^ (31 - i) % 2)).flatMap
        (fun d => if d = 1 then [560, -1690] else [560, -560]) := by
    rw [List.flatMap_map, List.flatMap_map]
    refine List.flatMap_congr (fun i _ => ?_)
    rw [necBit_bitCh]
  rw [generateNecLike, hparse]
  refine ⟨_, rfl, ?_, ?_, ?_⟩
  · rw [hbd, hz, hAB]
  · rw [hbd, hz]
    have h2 := flatMap_const2_len
      ((List.range 32).map (fun i => bitCh (v.toNat / 2 ^ (32 - 1 - i) % 2)))
      necBitTiming necBitTiming_len
    rw [List.length_append, List.length_append, h2, List.length_map, List.length_range]
    rfl
  · exact List.getLast?_concat _

theorem nec_like_32bit_witness :
    ∃ p, generateNecLike ['0','x','1','2','3','4','5','6','7','8'] = some p ∧
      p = [9000, -4500] ++
        ((List.range 32).map (fun i => (305419896 : Int).toNat / 2 ^ (31 - i) % 2)).flatMap
          (fun d => if d = 1 then [560, -1690] else [560, -560]) ++ [560] ∧
      p.length = 67 ∧ p.getLast? = some 560 :=
  nec_like_32bit ['0','x','1','2','3','4','5','6','7','8'] 305419896
    (by decide) (by decide) (by norm_num)
